import Mathlib

/-!
Shallow embedding of the core schedule logic of `CWC.py` (the Coffee &
Connect 2026 schedule app): text normalisation (`clean_text`), time-range
parsing (`parse_time_range`), schedule enrichment (`enrich_schedule`), the
upcoming-window filter (`upcoming_between`) and the calendar export
(`ics_from_rows`).

Modelling conventions: Python strings are `List Char`; values that may be
`None` are `Option`; timezone-aware datetimes — all of which carry the same
fixed-offset zone (IST, UTC+5:30, no daylight saving) — are represented by
their wall-clock minute count on the civil timeline, so that comparison,
sorting and `timedelta` arithmetic on them coincide with arithmetic on that
count.  The character scanners mirroring `re.sub` / `str.replace` /
`str.split` are written with an explicit fuel equal to the input length so
that they are structurally recursive and compute by `decide`.
-/

namespace CWC

/-- A Python value as seen by `clean_text` / `parse_time_range`: either a
string or some non-string value (modelled opaquely by a tag). -/
inductive PyVal where
  | str (s : List Char)
  | nonstr (tag : Nat)
deriving DecidableEq

/-- Control characters: code points below 0x20, the class `[\u0000-\u001F]`
replaced by `clean_text`. -/
def isCtrl (c : Char) : Bool := c.toNat < 32

/-- The whitespace class of Python `str.split()` / `str.strip()`. -/
def isPySpace (c : Char) : Bool :=
  c.toNat = 32 || (9 ≤ c.toNat && c.toNat ≤ 13) || (28 ≤ c.toNat && c.toNat ≤ 31) ||
  c.toNat = 133 || c.toNat = 160 || c.toNat = 5760 || (8192 ≤ c.toNat && c.toNat ≤ 8202) ||
  c.toNat = 8232 || c.toNat = 8233 || c.toNat = 8239 || c.toNat = 8287 || c.toNat = 12288

/-- The Excel line-break artifact `_x000D_` removed by `clean_text`. -/
def artifact : List Char := ['_', 'x', '0', '0', '0', 'D', '_']

/-- The literal `" IST"` discarded by `parse_time_range`. -/
def istLabel : List Char := [' ', 'I', 'S', 'T']

/-- Fuel-indexed scanner for `re.sub(pat, rep, s)` with a literal non-empty
pattern (also Python `str.replace`): replaces the non-overlapping occurrences
of `pat`, leftmost first.  The fuel is always instantiated with the input
length, which suffices because every step consumes at least one character. -/
def replAux (pat rep : List Char) : Nat → List Char → List Char
  | 0, s => s
  | _ + 1, [] => []
  | f + 1, c :: cs =>
    if pat.isPrefixOf (c :: cs) then rep ++ replAux pat rep f (cs.drop (pat.length - 1))
    else c :: replAux pat rep f cs

/-- Replace every occurrence of the literal `pat` by `rep`. -/
def pyReplace (pat rep s : List Char) : List Char := replAux pat rep s.length s

/-- Fuel-indexed scanner for `re.sub(r"[\u0000-\u001F]+", " ", s)`: each
maximal run of control characters becomes a single space. -/
def ctrlAux : Nat → List Char → List Char
  | 0, s => s
  | _ + 1, [] => []
  | f + 1, c :: cs =>
    if isCtrl c then ' ' :: ctrlAux f (cs.dropWhile isCtrl)
    else c :: ctrlAux f cs

/-- Replace runs of control characters by single spaces. -/
def stripCtrl (s : List Char) : List Char := ctrlAux s.length s

/-- Fuel-indexed splitter for Python `str.split()`: split on whitespace runs,
dropping empty pieces. -/
def wordsAux : Nat → List Char → List (List Char)
  | 0, _ => []
  | f + 1, s =>
    match s.dropWhile isPySpace with
    | [] => []
    | c :: cs =>
      (c :: cs.takeWhile (fun x => !isPySpace x)) :: wordsAux f (cs.dropWhile (fun x => !isPySpace x))

/-- Python `s.split()`. -/
def pyWords (s : List Char) : List (List Char) := wordsAux (s.length + 1) s

/-- Python `" ".join(ws)`. -/
def joinWords : List (List Char) → List Char
  | [] => []
  | [w] => w
  | w :: ws => w ++ ' ' :: joinWords ws

/-- Python `str.strip()`. -/
def pyStrip (s : List Char) : List Char :=
  ((s.dropWhile isPySpace).reverse.dropWhile isPySpace).reverse

/-- The string path of `clean_text`: remove the `_x000D_` artifact, replace
runs of control characters by a space, then `" ".join(x.split())`. -/
def cleanStr (s : List Char) : List Char :=
  joinWords (pyWords (stripCtrl (pyReplace artifact [' '] s)))

/-- `clean_text`: non-strings pass through unchanged. -/
def clean_text : PyVal → PyVal
  | .str s => .str (cleanStr s)
  | .nonstr t => .nonstr t

/-- A parsed `HH:MM` clock time. -/
structure ClockTime where
  hour : Nat
  minute : Nat
deriving DecidableEq

/-- Numeric value of a digit character. -/
def dval (c : Char) : Nat := c.toNat - 48

/-- `datetime.strptime(s, "%H:%M").time()`: `%H` matches one or two digits
(the two-digit form at most 23), `%M` one or two digits (the two-digit form
at most 59), and the whole string must be consumed; any failure raises, which
the caller turns into `None`. -/
def parseHM : List Char → Option ClockTime
  | [a, b, ':', c, d] =>
    if a.isDigit && b.isDigit && c.isDigit && d.isDigit
        && 10 * dval a + dval b ≤ 23 && 10 * dval c + dval d ≤ 59 then
      some ⟨10 * dval a + dval b, 10 * dval c + dval d⟩
    else none
  | [a, b, ':', c] =>
    if a.isDigit && b.isDigit && c.isDigit && 10 * dval a + dval b ≤ 23 then
      some ⟨10 * dval a + dval b, dval c⟩
    else none
  | [a, ':', c, d] =>
    if a.isDigit && c.isDigit && d.isDigit && 10 * dval c + dval d ≤ 59 then
      some ⟨dval a, 10 * dval c + dval d⟩
    else none
  | [a, ':', c] =>
    if a.isDigit && c.isDigit then some ⟨dval a, dval c⟩ else none
  | _ => none

/-- Python `str.split(sep)` for a single separator character: split at every
occurrence, keeping empty pieces (`"".split(sep) == [""]`). -/
def pySplit (sep : Char) : List Char → List (List Char)
  | [] => [[]]
  | c :: cs =>
    if c = sep then [] :: pySplit sep cs
    else
      match pySplit sep cs with
      | [] => [[c]]
      | w :: ws => (c :: w) :: ws

/-- `parse_time_range`: clean the text, drop the `" IST"` label, strip,
normalise the en-dash to a hyphen, split on hyphens, strip each part, and
parse the first (and, when present, the second) part as an `%H:%M` time. -/
def parse_time_range : PyVal → Option ClockTime × Option ClockTime
  | .nonstr _ => (none, none)
  | .str t =>
    let s := pyStrip (pyReplace istLabel [] (cleanStr t))
    let s2 := s.map (fun c => if c = '–' then '-' else c)
    let parts := (pySplit '-' s2).map pyStrip
    match parts with
    | [] => (none, none)
    | [p] => (parseHM p, none)
    | p :: q :: _ => (parseHM p, parseHM q)

/-- A civil calendar date. -/
structure CDate where
  year : Nat
  month : Nat
  day : Nat
deriving DecidableEq

/-- Gregorian leap-year rule. -/
def isLeap (y : Nat) : Bool := (y % 4 = 0 && !(y % 100 = 0)) || y % 400 = 0

/-- Length of a month. -/
def daysInMonth (y m : Nat) : Nat :=
  if m = 2 then (if isLeap y then 29 else 28)
  else if m = 4 ∨ m = 6 ∨ m = 9 ∨ m = 11 then 30
  else 31

/-- The validity check of the `datetime.date` constructor. -/
def mkDate (y m d : Nat) : Option CDate :=
  if 1 ≤ y ∧ 1 ≤ m ∧ m ≤ 12 ∧ 1 ≤ d ∧ d ≤ daysInMonth y m then some ⟨y, m, d⟩ else none

/-- `datetime.strptime(s, "%Y-%m-%d").date()`: `%Y` matches exactly four
digits, `%m` and `%d` one or two digits, the whole string must be consumed,
and the month, day and calendar validity checks of the `date` constructor
apply; any failure raises, which the caller turns into `None`. -/
def parseDate : List Char → Option CDate
  | [a, b, c, d, '-', m1, m2, '-', d1, d2] =>
    if a.isDigit && b.isDigit && c.isDigit && d.isDigit && m1.isDigit && m2.isDigit
        && d1.isDigit && d2.isDigit then
      mkDate (1000 * dval a + 100 * dval b + 10 * dval c + dval d)
        (10 * dval m1 + dval m2) (10 * dval d1 + dval d2)
    else none
  | [a, b, c, d, '-', m1, m2, '-', d1] =>
    if a.isDigit && b.isDigit && c.isDigit && d.isDigit && m1.isDigit && m2.isDigit
        && d1.isDigit then
      mkDate (1000 * dval a + 100 * dval b + 10 * dval c + dval d)
        (10 * dval m1 + dval m2) (dval d1)
    else none
  | [a, b, c, d, '-', m1, '-', d1, d2] =>
    if a.isDigit && b.isDigit && c.isDigit && d.isDigit && m1.isDigit
        && d1.isDigit && d2.isDigit then
      mkDate (1000 * dval a + 100 * dval b + 10 * dval c + dval d)
        (dval m1) (10 * dval d1 + dval d2)
    else none
  | [a, b, c, d, '-', m1, '-', d1] =>
    if a.isDigit && b.isDigit && c.isDigit && d.isDigit && m1.isDigit && d1.isDigit then
      mkDate (1000 * dval a + 100 * dval b + 10 * dval c + dval d) (dval m1) (dval d1)
    else none
  | _ => none

/-- Days since 0000-03-01 of a civil date (days-from-civil). -/
def toDays (y m d : Nat) : Nat :=
  let yy := if m ≤ 2 then y - 1 else y
  let mp := if m ≤ 2 then m + 9 else m - 3
  let era := yy / 400
  let yoe := yy % 400
  let doy := (153 * mp + 2) / 5 + d - 1
  let doe := yoe * 365 + yoe / 4 - yoe / 100 + doy
  era * 146097 + doe

/-- Civil date of a day count (civil-from-days). -/
def fromDays (z : Nat) : CDate :=
  let era := z / 146097
  let doe := z % 146097
  let yoe := (doe - doe / 1460 + doe / 36524 - doe / 146096) / 365
  let y := yoe + era * 400
  let doy := doe - (365 * yoe + yoe / 4 - yoe / 100)
  let mp := (5 * doy + 2) / 153
  let d := doy - (153 * mp + 2) / 5 + 1
  let m := if mp < 10 then mp + 3 else mp - 9
  if m ≤ 2 then ⟨y + 1, m, d⟩ else ⟨y, m, d⟩

/-- Minute count of `datetime.combine(d, t).replace(tzinfo=IST)`. -/
def mkMin (d : CDate) (t : ClockTime) : Nat :=
  1440 * toDays d.year d.month d.day + (60 * t.hour + t.minute)

/-- The `.month` of an instant (`df["Start (IST)"].dt.month`). -/
def monthOfMin (k : Nat) : Nat := (fromDays (k / 1440)).month

/-- `strftime("%a")`: abbreviated weekday name of an instant.  Day 0 of the
timeline (0000-03-01) was a Wednesday. -/
def dayAbbrev (k : Nat) : List Char :=
  match (k / 1440) % 7 with
  | 0 => ['W', 'e', 'd']
  | 1 => ['T', 'h', 'u']
  | 2 => ['F', 'r', 'i']
  | 3 => ['S', 'a', 't']
  | 4 => ['S', 'u', 'n']
  | 5 => ['M', 'o', 'n']
  | _ => ['T', 'u', 'e']

/-- A raw input row: the spreadsheet cells the core logic reads, as text
(their `str()`); numeric `Month #` cells and possibly-missing `Day` cells are
`Option`.  Missing whole columns are the table-level flags below. -/
structure RawRow where
  date : List Char
  time : List Char
  week : List Char
  monthNum : Option Nat
  dayName : Option (List Char)
  manager : List Char
  participants : List Char
  locationFocus : List Char
  modeOfConnect : List Char
deriving DecidableEq

/-- A raw table: rows plus presence flags for the reconstructible columns
`Month #` and `Day`. -/
structure RawTable where
  hasMonthNum : Bool
  hasDay : Bool
  rows : List RawRow
deriving DecidableEq

/-- An enriched row: cleaned text plus the derived fields. -/
structure Row where
  date : List Char
  time : List Char
  week : List Char
  monthNum : Option Nat
  dayName : Option (List Char)
  manager : List Char
  participants : List Char
  locationFocus : List Char
  modeOfConnect : List Char
  startInstant : Option Nat
  endInstant : Option Nat
deriving DecidableEq

/-- The per-row work of `enrich_schedule`: clean the text cells, parse the
date (strictly `%Y-%m-%d`) and the time range, build the start/end instants
(the end defaulting to start + 30 minutes when no end time parses), and
reconstruct `Month #` / `Day` from the start instant when those columns are
absent. -/
def enrichRow (hasMonthNum hasDay : Bool) (r : RawRow) : Row :=
  let date := cleanStr r.date
  let time := cleanStr r.time
  let week := cleanStr r.week
  let dayN := r.dayName.map cleanStr
  let d := parseDate (pyStrip date)
  let st := parse_time_range (.str (pyStrip time))
  let startI : Option Nat :=
    match d, st.1 with
    | some dd, some t => some (mkMin dd t)
    | _, _ => none
  let endI : Option Nat :=
    match d, st.2 with
    | some dd, some t => some (mkMin dd t)
    | _, _ => startI.map (· + 30)
  { date := date, time := time, week := week,
    monthNum := if hasMonthNum then r.monthNum else startI.map monthOfMin,
    dayName := if hasDay then dayN else startI.map dayAbbrev,
    manager := cleanStr r.manager, participants := cleanStr r.participants,
    locationFocus := cleanStr r.locationFocus, modeOfConnect := cleanStr r.modeOfConnect,
    startInstant := startI, endInstant := endI }

/-- Lexicographic comparison of Python strings (code-point order). -/
def lexLE : List Char → List Char → Bool
  | [], _ => true
  | _ :: _, [] => false
  | a :: as, b :: bs =>
    if a.toNat < b.toNat then true
    else if b.toNat < a.toNat then false
    else lexLE as bs

/-- The `sort_values(["Start (IST)", "Week"])` order: ascending by start
instant with missing instants last (pandas `na_position="last"`), ties broken
by the week label. -/
def rowLE (a b : Row) : Bool :=
  match a.startInstant, b.startInstant with
  | some x, some y => if x = y then lexLE a.week b.week else decide (x < y)
  | some _, none => true
  | none, some _ => false
  | none, none => lexLE a.week b.week

/-- The `sort_values("Start (IST)")` order used by `upcoming_between`. -/
def startLE (a b : Row) : Bool :=
  match a.startInstant, b.startInstant with
  | some x, some y => decide (x ≤ y)
  | _, none => true
  | none, some _ => false

/-- The mask `(start > now) & (start <= now + horizon)`; a missing start
compares false. -/
def inWindow (now horizon : Nat) (r : Row) : Bool :=
  match r.startInstant with
  | some s => decide (now < s) && decide (s ≤ now + horizon)
  | none => false

/-- `upcoming_between`: the rows of the window, sorted ascending by start. -/
def upcoming_between (rows : List Row) (now horizon : Nat) : List Row :=
  List.insertionSort (fun a b => startLE a b = true) (rows.filter (inWindow now horizon))

/-- `enrich_schedule`: enrich every row, then sort by (start, week). -/
def enrich_schedule (t : RawTable) : List Row :=
  List.insertionSort (fun a b => rowLE a b = true)
    (t.rows.map (enrichRow t.hasMonthNum t.hasDay))

/-- Conversion of an IST instant to universal time: the fixed zone is
UTC+5:30, i.e. 330 minutes ahead. -/
def utcOfIST (k : Nat) : Nat := k - 330

/-- ASCII digit of a value below ten. -/
def digitAscii : Nat → Char
  | 0 => '0'
  | 1 => '1'
  | 2 => '2'
  | 3 => '3'
  | 4 => '4'
  | 5 => '5'
  | 6 => '6'
  | 7 => '7'
  | 8 => '8'
  | _ => '9'

/-- Two-digit zero-padded decimal. -/
def pad2 (n : Nat) : List Char := [digitAscii (n / 10 % 10), digitAscii (n % 10)]

/-- Four-digit zero-padded decimal. -/
def pad4 (n : Nat) : List Char :=
  [digitAscii (n / 1000 % 10), digitAscii (n / 100 % 10), digitAscii (n / 10 % 10),
   digitAscii (n % 10)]

/-- `strftime("%Y%m%dT%H%M%SZ")` of a universal-time minute count (seconds
are always zero because instants are built from `HH:MM` times). -/
def fmtCompact (u : Nat) : List Char :=
  let d := fromDays (u / 1440)
  pad4 d.year ++ pad2 d.month ++ pad2 d.day ++ 'T' ::
    (pad2 (u % 1440 / 60) ++ pad2 (u % 60) ++ ['0', '0', 'Z'])

/-- The UTC timestamp string of an IST instant
(`start.astimezone(UTC).strftime("%Y%m%dT%H%M%SZ")`). -/
def fmtUTC (k : Nat) : List Char := fmtCompact (utcOfIST k)

/-- The event block lines of one row as a function of its `Option`-level
instants: the nine `VEVENT` lines when both instants are concretely present
(the successful branch of the export loop), empty otherwise.  Note that this
is NOT by itself the `isinstance(..., datetime)` guard of the loop: in the
running program an absent instant inside a mixed enriched table is `pd.NaT`,
which is a `datetime` instance, so the guard does not reach the empty case
for it — see `evLinesPd` and `ics_from_rows` below for the faithful,
fallible per-row export. -/
def evLines (r : Row) : List (List Char) :=
  match r.startInstant, r.endInstant with
  | some s, some e =>
    [("BEGIN:VEVENT".data),
     ("UID:".data) ++ fmtUTC s ++ ('-' :: r.week) ++ ("-coffee-connect@atul".data),
     ("DTSTAMP:".data) ++ fmtUTC s,
     ("DTSTART:".data) ++ fmtUTC s,
     ("DTEND:".data) ++ fmtUTC e,
     ("SUMMARY:Coffee & Connect — ".data) ++ r.week,
     ("DESCRIPTION:Manager: ".data) ++ r.manager ++ ('\n' :: ("Participants: ".data)) ++
       r.participants ++ ('\n' :: ("Focus: ".data)) ++ r.locationFocus ++
       ('\n' :: ("Mode: ".data)) ++ r.modeOfConnect,
     ("LOCATION:".data) ++ r.locationFocus,
     ("END:VEVENT".data)]
  | _, _ => []

/-- CRLF join, `"\r\n".join(lines)`. -/
def joinCRLF : List (List Char) → List Char
  | [] => []
  | [l] => l
  | l :: ls => l ++ '\r' :: '\n' :: joinCRLF ls

/-- A cell of an instant column of the materialised enriched table, as the
export loop sees it while iterating: a concrete timezone-aware timestamp, the
missing-value marker `pd.NaT` (used in a `datetime64`-typed column), or
Python `None` (kept when the column stayed object-dtyped). -/
inductive PdTime where
  | ts (k : Nat)
  | pdNaT
  | pynone
deriving DecidableEq

/-- `isinstance(x, datetime)` on a column cell: true for real timestamps AND
for `pd.NaT` (`NaTType` subclasses `datetime`); false for `None`. -/
def PdTime.isDatetime : PdTime → Bool
  | .ts _ => true
  | .pdNaT => true
  | .pynone => false

/-- `x.astimezone(UTC).strftime("%Y%m%dT%H%M%SZ")` on a column cell: a real
timestamp formats as the compact UTC string; `pd.NaT` raises `ValueError`
(`NaT.astimezone` returns `NaT` and `NaTType` does not support `strftime`),
modelled as the error outcome.  (`None` cells never reach this point: the
guard filters them.) -/
def fmtPdUTC : PdTime → Except Unit (List Char)
  | .ts k => .ok (fmtUTC k)
  | .pdNaT => .error ()
  | .pynone => .error ()

/-- How pandas stores the per-row instant lists built by `enrich_schedule`
once they are assigned as columns: if at least one row of the column carries
an instant the column is inferred as `datetime64[ns, tz]` and every `None`
becomes `pd.NaT`; otherwise the column stays object-dtyped and keeps
`None`.  (The program itself relies on this inference: the
`df["Start (IST)"].dt.month` reconstruction only works on a
datetime-typed column.) -/
def pdCell (dtCol : Bool) : Option Nat → PdTime
  | some k => .ts k
  | none => if dtCol then .pdNaT else .pynone

/-- Column dtype inference: at least one present instant makes the column
datetime-typed. -/
def inferDT (xs : List (Option Nat)) : Bool := xs.any Option.isSome

/-- One iteration of the `ics_from_rows` loop: the
`isinstance(..., datetime)` guard `continue`s only on non-datetime cells
(that is, on `None`); any other row is formatted — `dtstart_utc` first, then
`dtend_utc` — which raises on a `pd.NaT` cell. -/
def evLinesPd (r : Row) (sc ec : PdTime) : Except Unit (List (List Char)) :=
  if sc.isDatetime = false ∨ ec.isDatetime = false then .ok []
  else do
    let ds ← fmtPdUTC sc
    let de ← fmtPdUTC ec
    pure [("BEGIN:VEVENT".data),
      ("UID:".data) ++ ds ++ ('-' :: r.week) ++ ("-coffee-connect@atul".data),
      ("DTSTAMP:".data) ++ ds,
      ("DTSTART:".data) ++ ds,
      ("DTEND:".data) ++ de,
      ("SUMMARY:Coffee & Connect — ".data) ++ r.week,
      ("DESCRIPTION:Manager: ".data) ++ r.manager ++ ('\n' :: ("Participants: ".data)) ++
        r.participants ++ ('\n' :: ("Focus: ".data)) ++ r.locationFocus ++
        ('\n' :: ("Mode: ".data)) ++ r.modeOfConnect,
      ("LOCATION:".data) ++ r.locationFocus,
      ("END:VEVENT".data)]

/-- The line list of the exported calendar, or the raised `ValueError` when
the loop hits a `pd.NaT` cell.  The column dtypes are inferred from the rows
being exported, matching the full-table `ics_from_rows(df, ...)` call. -/
def icsLinesE (rows : List Row) (calName : List Char) : Except Unit (List (List Char)) := do
  let sDT := inferDT (rows.map (fun r => r.startInstant))
  let eDT := inferDT (rows.map (fun r => r.endInstant))
  let blocks ← rows.mapM (fun r =>
    evLinesPd r (pdCell sDT r.startInstant) (pdCell eDT r.endInstant))
  pure ([("BEGIN:VCALENDAR".data), ("VERSION:2.0".data),
    ("PRODID:-//CoffeeConnect//Schedule//EN".data), ("X-WR-CALNAME:".data) ++ calName]
    ++ blocks.flatten ++ [("END:VCALENDAR".data)])

/-- `ics_from_rows`: the single CRLF-joined calendar document, or the raised
`ValueError`. -/
def ics_from_rows (rows : List Row) (calName : List Char) : Except Unit (List Char) :=
  (icsLinesE rows calName).map joinCRLF

/-- The raw fields underlying an enriched row (for the idempotence claim). -/
def toRawRow (r : Row) : RawRow :=
  { date := r.date, time := r.time, week := r.week, monthNum := r.monthNum,
    dayName := r.dayName, manager := r.manager, participants := r.participants,
    locationFocus := r.locationFocus, modeOfConnect := r.modeOfConnect }

/-- The table underlying the enricher's own output: the reconstructed
`Month #` and `Day` columns are present in it. -/
def toRawTable (rows : List Row) : RawTable :=
  { hasMonthNum := true, hasDay := true, rows := rows.map toRawRow }

/-! ### Order lemmas for the sort relations -/

theorem lexLE_total : ∀ a b : List Char, lexLE a b = true ∨ lexLE b a = true := by
  intro a
  induction a with
  | nil => intro b; left; simp [lexLE]
  | cons x xs ih =>
    intro b
    cases b with
    | nil => right; simp [lexLE]
    | cons y ys =>
      simp only [lexLE]
      by_cases h1 : x.toNat < y.toNat
      · left; simp [h1]
      · by_cases h2 : y.toNat < x.toNat
        · right; simp [h1, h2]
        · rcases ih ys with h | h
          · left; simp [h1, h2, h]
          · right; simp [h1, h2, h]

theorem lexLE_trans :
    ∀ a b c : List Char, lexLE a b = true → lexLE b c = true → lexLE a c = true := by
  intro a
  induction a with
  | nil => intro b c _ _; simp [lexLE]
  | cons x xs ih =>
    intro b c hab hbc
    cases b with
    | nil => simp [lexLE] at hab
    | cons y ys =>
      cases c with
      | nil => simp [lexLE] at hbc
      | cons z zs =>
        simp only [lexLE] at hab hbc ⊢
        by_cases hxz : x.toNat < z.toNat
        · simp [hxz]
        · by_cases h1 : x.toNat < y.toNat
          · by_cases h2 : y.toNat < z.toNat
            · omega
            · by_cases h3 : z.toNat < y.toNat
              · simp [h2, h3] at hbc
              · omega
          · by_cases h4 : y.toNat < x.toNat
            · simp [h1, h4] at hab
            · by_cases h2 : y.toNat < z.toNat
              · omega
              · by_cases h3 : z.toNat < y.toNat
                · simp [h2, h3] at hbc
                · have hzx : ¬ z.toNat < x.toNat := by omega
                  simp only [h1, h4, if_neg, ite_false] at hab
                  simp only [h2, h3, if_neg, ite_false] at hbc
                  simp only [hxz, hzx, if_neg, ite_false]
                  exact ih ys zs hab hbc

theorem rowLE_total : ∀ a b : Row, rowLE a b = true ∨ rowLE b a = true := by
  intro a b
  cases ha : a.startInstant <;> cases hb : b.startInstant <;> simp [rowLE, ha, hb]
  · exact lexLE_total _ _
  case some.some x y =>
    by_cases hxy : x = y
    · subst hxy
      simp only [if_pos rfl]
      exact lexLE_total _ _
    · simp only [if_neg hxy, if_neg (Ne.symm hxy)]
      omega

theorem rowLE_trans :
    ∀ a b c : Row, rowLE a b = true → rowLE b c = true → rowLE a c = true := by
  intro a b c hab hbc
  cases ha : a.startInstant <;> cases hb : b.startInstant <;> cases hc : c.startInstant <;>
    simp [rowLE, ha, hb, hc] at hab hbc ⊢
  · exact lexLE_trans _ _ _ hab hbc
  case some.some.some x y z =>
    by_cases h1 : x = y <;> by_cases h2 : y = z
    · subst h1; subst h2
      simp only [if_pos rfl] at hab hbc ⊢
      exact lexLE_trans _ _ _ hab hbc
    · subst h1
      simp only [if_pos rfl, if_neg h2] at hab hbc ⊢
      simpa [h2] using hbc
    · subst h2
      simp only [if_pos rfl, if_neg h1] at hab hbc ⊢
      simpa [h1] using hab
    · simp only [if_neg h1, if_neg h2] at hab hbc
      have : x < z := by omega
      simp [if_neg (show x ≠ z by omega), this]

theorem startLE_total : ∀ a b : Row, startLE a b = true ∨ startLE b a = true := by
  intro a b
  cases ha : a.startInstant <;> cases hb : b.startInstant <;> simp [startLE, ha, hb]
  omega

theorem startLE_trans :
    ∀ a b c : Row, startLE a b = true → startLE b c = true → startLE a c = true := by
  intro a b c hab hbc
  cases ha : a.startInstant <;> cases hb : b.startInstant <;> cases hc : c.startInstant <;>
    simp [startLE, ha, hb, hc] at hab hbc ⊢
  omega

instance : IsTotal Row (fun a b => rowLE a b = true) := ⟨rowLE_total⟩

instance : IsTrans Row (fun a b => rowLE a b = true) := ⟨rowLE_trans⟩

instance : IsTotal Row (fun a b => startLE a b = true) := ⟨startLE_total⟩

instance : IsTrans Row (fun a b => startLE a b = true) := ⟨startLE_trans⟩

/-- Membership in the enriched table is exactly being the enrichment of a raw
row of the input. -/
theorem mem_enrich_schedule {t : RawTable} {r : Row} :
    r ∈ enrich_schedule t ↔ ∃ raw ∈ t.rows, enrichRow t.hasMonthNum t.hasDay raw = r := by
  unfold enrich_schedule
  rw [List.mem_insertionSort, List.mem_map]

/-- The window mask holds exactly on present starts inside the half-open
window. -/
theorem inWindow_iff {now horizon : Nat} {r : Row} :
    inWindow now horizon r = true ↔
      ∃ s, r.startInstant = some s ∧ now < s ∧ s ≤ now + horizon := by
  cases h : r.startInstant <;> simp [inWindow, h]

/-- A row whose start instant sits exactly at the window edge. -/
def edgeRow : Row :=
  { date := [], time := [], week := [], monthNum := none, dayName := none, manager := [],
    participants := [], locationFocus := [], modeOfConnect := [],
    startInstant := some 5, endInstant := some 5 }

/-- Claim C2, counterexample: with `now = 5` and the non-negative horizon
`H = 0`, a row whose `start_instant` equals `now + H` is NOT returned by the
Upcoming-Window Filter (it coincides with the excluded left boundary), so
the claimed inclusion of the `T + H` boundary fails as stated. -/
theorem C2_counterexample :
    edgeRow ∈ [edgeRow] ∧ edgeRow.startInstant = some (5 + 0) ∧
      edgeRow ∉ upcoming_between [edgeRow] 5 0 := by
  decide

/-- Claim C2 (amended): for every enriched table, instant `T` and horizon
`H`, `upcoming_between` returns exactly the rows with
`T < start_instant ≤ T + H`, sorted ascending by `start_instant`; rows with
an absent `start_instant` are excluded, a row with `start_instant = T` is
excluded, and — provided the horizon is positive — a row with
`start_instant = T + H` is included. -/
theorem C2_upcoming : ∀ (rows : List Row) (now horizon : Nat),
    (∀ r, r ∈ upcoming_between rows now horizon ↔
      r ∈ rows ∧ ∃ s, r.startInstant = some s ∧ now < s ∧ s ≤ now + horizon)
    ∧ List.Sorted (fun a b => startLE a b = true) (upcoming_between rows now horizon)
    ∧ (∀ r ∈ rows, r.startInstant = none → r ∉ upcoming_between rows now horizon)
    ∧ (∀ r ∈ rows, r.startInstant = some now → r ∉ upcoming_between rows now horizon)
    ∧ (∀ r ∈ rows, 0 < horizon → r.startInstant = some (now + horizon) →
        r ∈ upcoming_between rows now horizon) := by
  intro rows now horizon
  have hmem : ∀ r, r ∈ upcoming_between rows now horizon ↔
      r ∈ rows ∧ ∃ s, r.startInstant = some s ∧ now < s ∧ s ≤ now + horizon := by
    intro r
    unfold upcoming_between
    rw [List.mem_insertionSort, List.mem_filter, inWindow_iff]
  refine ⟨hmem, List.sorted_insertionSort _ _, ?_, ?_, ?_⟩
  · intro r _ h0 hin
    rcases ((hmem r).1 hin).2 with ⟨s, hs, _, _⟩
    rw [h0] at hs
    cases hs
  · intro r _ h0 hin
    rcases ((hmem r).1 hin).2 with ⟨s, hs, hlt, _⟩
    rw [h0] at hs
    cases hs
    omega
  · intro r hr hpos h0
    exact (hmem r).2 ⟨hr, now + horizon, h0, by omega, le_refl _⟩

/-- Claim C7: the enriched table is sorted primarily by `start_instant`
(ascending, missing instants at the end) and secondarily by `week_label`;
every row after a row with an absent `start_instant` also has an absent
`start_instant`, so absent starts sit at one consistent end for every
input. -/
theorem C7_sorted : ∀ t : RawTable,
    List.Sorted (fun a b => rowLE a b = true) (enrich_schedule t)
    ∧ ∀ l1 (a : Row) l2, enrich_schedule t = l1 ++ a :: l2 → a.startInstant = none →
        ∀ b ∈ l2, b.startInstant = none := by
  intro t
  have hs : List.Sorted (fun a b => rowLE a b = true) (enrich_schedule t) :=
    List.sorted_insertionSort _ _
  refine ⟨hs, ?_⟩
  intro l1 a l2 he hnone b hb
  rw [he] at hs
  have h1 : List.Sorted (fun a b => rowLE a b = true) (a :: l2) :=
    (List.pairwise_append.mp hs).2.1
  have h2 := List.rel_of_sorted_cons h1 b hb
  cases hcb : b.startInstant with
  | none => rfl
  | some y => simp [rowLE, hnone, hcb] at h2

/-! ### Projections of `enrichRow` -/

theorem enrichRow_startInstant (h d : Bool) (raw : RawRow) :
    (enrichRow h d raw).startInstant =
      match parseDate (pyStrip (cleanStr raw.date)),
          (parse_time_range (.str (pyStrip (cleanStr raw.time)))).1 with
      | some dd, some t => some (mkMin dd t)
      | _, _ => none := rfl

theorem enrichRow_endInstant (h d : Bool) (raw : RawRow) :
    (enrichRow h d raw).endInstant =
      match parseDate (pyStrip (cleanStr raw.date)),
          (parse_time_range (.str (pyStrip (cleanStr raw.time)))).2 with
      | some dd, some t => some (mkMin dd t)
      | _, _ => (enrichRow h d raw).startInstant.map (· + 30) := rfl

theorem enrichRow_monthNum (h d : Bool) (raw : RawRow) :
    (enrichRow h d raw).monthNum =
      if h then raw.monthNum else (enrichRow h d raw).startInstant.map monthOfMin := rfl

theorem enrichRow_dayName (h d : Bool) (raw : RawRow) :
    (enrichRow h d raw).dayName =
      if d then raw.dayName.map cleanStr
      else (enrichRow h d raw).startInstant.map dayAbbrev := rfl

/-- Claim C6: when the `Month #` column is absent the enricher derives
`month_number` as the month of the start instant, and when the `Day` column
is absent it derives `day_name` as the abbreviated weekday name of the start
instant; in both cases the field is absent when the start instant is
absent. -/
theorem C6_reconstruct : ∀ (t : RawTable) (r : Row), r ∈ enrich_schedule t →
    (t.hasMonthNum = false → r.monthNum = r.startInstant.map monthOfMin)
    ∧ (t.hasDay = false → r.dayName = r.startInstant.map dayAbbrev)
    ∧ (r.startInstant = none →
        (t.hasMonthNum = false → r.monthNum = none)
        ∧ (t.hasDay = false → r.dayName = none)) := by
  intro t r hr
  rcases mem_enrich_schedule.mp hr with ⟨raw, _, heq⟩
  subst heq
  refine ⟨?_, ?_, ?_⟩
  · intro hM
    rw [enrichRow_monthNum, hM, if_neg (by simp)]
  · intro hD
    rw [enrichRow_dayName, hD, if_neg (by simp)]
  · intro h0
    rw [enrichRow_startInstant] at h0
    constructor
    · intro hM
      rw [enrichRow_monthNum, hM, if_neg (by simp), enrichRow_startInstant, h0]
      rfl
    · intro hD
      rw [enrichRow_dayName, hD, if_neg (by simp), enrichRow_startInstant, h0]
      rfl

/-- A raw row whose time range runs backwards (the supplied end clock time
is earlier than the start clock time). -/
def revRow : RawRow :=
  { date := ("2026-03-10".data), time := ("16:00-15:30 IST".data), week := ("W2".data),
    monthNum := some 3, dayName := some ("Tue".data), manager := [], participants := [],
    locationFocus := [], modeOfConnect := [] }

/-- The one-row table holding `revRow`. -/
def revTable : RawTable := { hasMonthNum := true, hasDay := true, rows := [revRow] }

/-- Claim C1, counterexample: on the raw input row
`Date="2026-03-10", Time="16:00-15:30 IST"` the enriched table contains a
row with a present `start_instant` whose `end_instant` is strictly earlier
than its `start_instant` (the enricher trusts a backwards source range), so
`end_instant ≥ start_instant` does not hold for every row. -/
theorem C1_counterexample :
    ∃ r ∈ enrich_schedule revTable,
      r.startInstant.isSome ∧ r.endInstant.isSome ∧
        r.endInstant.getD 0 < r.startInstant.getD 0 := by
  decide

/-- Claim C1 (amended): for every enriched row with a present
`start_instant`, `end_instant` is present; and `end_instant` can be earlier
than `start_instant` only when the source supplied a parseable end clock
time strictly earlier than the start clock time — in particular the
invariant holds whenever the 30-minute default applies or the supplied range
is not backwards. -/
theorem C1_endInstant : ∀ (t : RawTable) (r : Row), r ∈ enrich_schedule t →
    ∀ s, r.startInstant = some s →
    ∃ e, r.endInstant = some e ∧
      (e < s → ∃ raw ∈ t.rows, enrichRow t.hasMonthNum t.hasDay raw = r ∧
        ∃ st et, (parse_time_range (.str (pyStrip (cleanStr raw.time)))).1 = some st ∧
          (parse_time_range (.str (pyStrip (cleanStr raw.time)))).2 = some et ∧
          60 * et.hour + et.minute < 60 * st.hour + st.minute) := by
  intro t r hr s hs
  rcases mem_enrich_schedule.mp hr with ⟨raw, hraw, heq⟩
  subst heq
  rw [enrichRow_startInstant] at hs
  cases hd : parseDate (pyStrip (cleanStr raw.date)) with
  | none => rw [hd] at hs; cases hs
  | some dd =>
    cases hst : (parse_time_range (.str (pyStrip (cleanStr raw.time)))).1 with
    | none => rw [hd, hst] at hs; cases hs
    | some st =>
      rw [hd, hst] at hs
      have hsval : s = mkMin dd st := by cases hs; rfl
      cases het : (parse_time_range (.str (pyStrip (cleanStr raw.time)))).2 with
      | none =>
        refine ⟨s + 30, ?_, ?_⟩
        · rw [enrichRow_endInstant, hd, het, enrichRow_startInstant, hd, hst]
          rw [hsval]
          rfl
        · intro habs; omega
      | some et =>
        refine ⟨mkMin dd et, ?_, ?_⟩
        · rw [enrichRow_endInstant, hd, het]
        · intro hlt
          refine ⟨raw, hraw, rfl, st, et, hst, het, ?_⟩
          rw [hsval] at hlt
          unfold mkMin at hlt
          omega

/-- The raw row of the spec scenario: a date with a start time and no end
time. -/
def schedRow : RawRow :=
  { date := ("2026-03-10".data), time := ("15:30 IST".data), week := ("W1".data),
    monthNum := none, dayName := none, manager := [], participants := [],
    locationFocus := [], modeOfConnect := [] }

/-- Claim C4: whenever the date and the start time parse but no end time
does, the enricher sets `end_instant = start_instant + 30 minutes`; on the
scenario row `Date="2026-03-10", Time="15:30 IST"` the start is 15:30 and
the end is 16:00 local on that date. -/
theorem C4_default :
    (∀ (h d : Bool) (raw : RawRow) (dd : CDate) (st : ClockTime),
      parseDate (pyStrip (cleanStr raw.date)) = some dd →
      (parse_time_range (.str (pyStrip (cleanStr raw.time)))).1 = some st →
      (parse_time_range (.str (pyStrip (cleanStr raw.time)))).2 = none →
      (enrichRow h d raw).startInstant = some (mkMin dd st) ∧
      (enrichRow h d raw).endInstant = some (mkMin dd st + 30))
    ∧ (enrichRow true true schedRow).startInstant = some (mkMin ⟨2026, 3, 10⟩ ⟨15, 30⟩)
    ∧ (enrichRow true true schedRow).endInstant = some (mkMin ⟨2026, 3, 10⟩ ⟨16, 0⟩) := by
  refine ⟨?_, by decide, by decide⟩
  intro h d raw dd st hd hst het
  constructor
  · rw [enrichRow_startInstant, hd, hst]
  · rw [enrichRow_endInstant, hd, het, enrichRow_startInstant, hd, hst]
    rfl

/-! ### Generic list helpers -/

theorem mem_tw {p : α → Bool} : ∀ {l : List α} {a : α}, a ∈ l.takeWhile p → p a = true := by
  intro l
  induction l with
  | nil => intro a h; cases h
  | cons x xs ih =>
    intro a h
    rw [List.takeWhile_cons] at h
    cases hp : p x with
    | false => rw [hp] at h; cases h
    | true =>
      rw [hp] at h
      rcases List.mem_cons.mp h with rfl | h2
      · exact hp
      · exact ih h2

theorem dw_head {p : α → Bool} :
    ∀ {l : List α} {a : α} {t : List α}, l.dropWhile p = a :: t → p a = false := by
  intro l
  induction l with
  | nil => intro a t h; cases h
  | cons x xs ih =>
    intro a t h
    rw [List.dropWhile_cons] at h
    cases hp : p x with
    | false => rw [hp] at h; cases h; exact hp
    | true => rw [hp] at h; exact ih h

theorem dw_none {p : α → Bool} {l : List α} (h : ∀ c ∈ l, p c = false) :
    l.dropWhile p = l := by
  cases l with
  | nil => rfl
  | cons x xs => rw [List.dropWhile_cons_of_neg (by rw [h x (List.mem_cons_self x xs)]; simp)]

theorem tw_all {p : α → Bool} {l : List α} (h : ∀ c ∈ l, p c = true) :
    l.takeWhile p = l := by
  induction l with
  | nil => rfl
  | cons x xs ih =>
    rw [List.takeWhile_cons_of_pos (h x (List.mem_cons_self x xs)),
      ih (fun c hc => h c (List.mem_cons_of_mem x hc))]

theorem dw_all {p : α → Bool} {l : List α} (h : ∀ c ∈ l, p c = true) :
    l.dropWhile p = [] := by
  induction l with
  | nil => rfl
  | cons x xs ih =>
    rw [List.dropWhile_cons_of_pos (h x (List.mem_cons_self x xs)),
      ih (fun c hc => h c (List.mem_cons_of_mem x hc))]

theorem tw_append_of_all {p : α → Bool} {a : List α} (b : List α) (h : ∀ c ∈ a, p c = true) :
    (a ++ b).takeWhile p = a ++ b.takeWhile p := by
  induction a with
  | nil => rfl
  | cons x xs ih =>
    rw [List.cons_append, List.takeWhile_cons_of_pos (h x (List.mem_cons_self x xs)),
      List.cons_append, ih (fun c hc => h c (List.mem_cons_of_mem x hc))]

theorem dw_append_of_all {p : α → Bool} {a : List α} (b : List α) (h : ∀ c ∈ a, p c = true) :
    (a ++ b).dropWhile p = b.dropWhile p := by
  induction a with
  | nil => rfl
  | cons x xs ih =>
    rw [List.cons_append, List.dropWhile_cons_of_pos (h x (List.mem_cons_self x xs)),
      ih (fun c hc => h c (List.mem_cons_of_mem x hc))]

theorem infix_of_pre_suf {p m s : List α} (h1 : p <+: m) (h2 : m <:+ s) : p <:+: s := by
  rcases h1 with ⟨t, ht⟩
  rcases h2 with ⟨q, hq⟩
  exact ⟨q, t, by rw [← hq, ← ht, List.append_assoc]⟩

/-- Splitting an infix occurrence across an append: it lies in the left part,
in the right part, or spans the boundary. -/
theorem infix_append_split {p a b : List α} (h : p <:+: a ++ b) :
    p <:+: a ∨ p <:+: b ∨
      ∃ p1 p2, p = p1 ++ p2 ∧ p1 ≠ [] ∧ p2 ≠ [] ∧ p1 <:+ a ∧ p2 <+: b := by
  rcases h with ⟨u, v, huv⟩
  rw [List.append_assoc] at huv
  rcases List.append_eq_append_iff.mp huv with ⟨w, hw1, hw2⟩ | ⟨z, _, hz2⟩
  · rcases List.append_eq_append_iff.mp hw2 with ⟨x, hx1, _⟩ | ⟨y, hy1, hy2⟩
    · left
      exact ⟨u, x, by rw [hw1, hx1, List.append_assoc]⟩
    · cases hwnil : w with
      | nil =>
        right; left
        subst hwnil
        simp only [List.nil_append] at hy1
        exact ⟨[], v, by rw [List.nil_append, hy1, hy2]⟩
      | cons wh wt =>
        cases hynil : y with
        | nil =>
          left
          subst hynil
          rw [List.append_nil] at hy1
          exact ⟨u, [], by rw [List.append_nil, hy1, hw1]⟩
        | cons yh yt =>
          right; right
          refine ⟨w, y, hy1, by rw [hwnil]; simp, by rw [hynil]; simp, ⟨u, hw1.symm⟩, ⟨v, hy2.symm⟩⟩
  · right; left
    exact ⟨z, v, by rw [hz2, List.append_assoc]⟩

/-! ### Scanner lemmas: `replAux` -/

theorem replAux_noop {hc : Char} {pt rep : List Char} :
    ∀ (f : Nat) (s : List Char), (∀ c ∈ s, c ≠ hc) → replAux (hc :: pt) rep f s = s := by
  intro f
  induction f with
  | zero => intro s _; rfl
  | succ f ih =>
    intro s h
    cases s with
    | nil => rfl
    | cons c cs =>
      rw [replAux, if_neg, ih cs (fun x hx => h x (List.mem_cons_of_mem c hx))]
      intro hp
      rcases List.isPrefixOf_iff_prefix.mp hp with ⟨t, ht⟩
      rw [List.cons_append] at ht
      injection ht with h1 _
      exact h c (List.mem_cons_self c cs) h1.symm

/-- A prefix of the scanner output that avoids the replacement character is
a prefix of the scanner input. -/
theorem replAux_pre_reflect {rep0 : Char} (pat : List Char) :
    ∀ (f : Nat) (p s : List Char), (∀ c ∈ p, c ≠ rep0) →
      p <+: replAux pat [rep0] f s → p <+: s := by
  intro f
  induction f with
  | zero => intro p s _ h; exact h
  | succ f ih =>
    intro p s hp h
    cases s with
    | nil => simpa [replAux] using h
    | cons c cs =>
      rw [replAux] at h
      by_cases hg : pat.isPrefixOf (c :: cs) = true
      · rw [if_pos hg, List.cons_append, List.nil_append] at h
        cases p with
        | nil => exact List.nil_prefix
        | cons ph pt =>
          rcases h with ⟨t, ht⟩
          rw [List.cons_append] at ht
          injection ht with h1 _
          exact absurd h1 (hp ph (List.mem_cons_self ph pt))
      · rw [if_neg hg] at h
        cases p with
        | nil => exact List.nil_prefix
        | cons ph pt =>
          rcases h with ⟨t, ht⟩
          rw [List.cons_append] at ht
          injection ht with h1 h2
          subst h1
          rcases ih pt cs (fun x hx => hp x (List.mem_cons_of_mem ph hx)) ⟨t, h2⟩ with ⟨q, hq⟩
          exact ⟨q, by rw [List.cons_append, hq]⟩

/-- The artifact scanner leaves no occurrence of the artifact behind. -/
theorem replAux_no_artifact :
    ∀ (f : Nat) (s : List Char), s.length ≤ f → ¬ artifact <:+: replAux artifact [' '] f s := by
  intro f
  induction f with
  | zero =>
    intro s hlen
    have : s = [] := List.length_eq_zero.mp (Nat.le_zero.mp hlen)
    subst this
    simp [replAux, artifact]
  | succ f ih =>
    intro s hlen h
    cases s with
    | nil => simp [replAux, artifact] at h
    | cons c cs =>
      rw [replAux] at h
      by_cases hg : artifact.isPrefixOf (c :: cs) = true
      · rw [if_pos hg, List.cons_append, List.nil_append] at h
        rcases List.infix_cons_iff.mp h with hpre | hinf
        · rcases hpre with ⟨t, ht⟩
          rw [show artifact = '_' :: ['x', '0', '0', '0', 'D', '_'] from rfl,
            List.cons_append] at ht
          injection ht with h1 _
          cases h1
        · refine ih (cs.drop (artifact.length - 1)) ?_ hinf
          have h1 : cs.length ≤ f := by simpa using hlen
          have h2 : (cs.drop (artifact.length - 1)).length ≤ cs.length := by
            rw [List.length_drop]; omega
          omega
      · rw [if_neg hg] at h
        rcases List.infix_cons_iff.mp h with hpre | hinf
        · rcases hpre with ⟨t, ht⟩
          rw [show artifact = '_' :: ['x', '0', '0', '0', 'D', '_'] from rfl,
            List.cons_append] at ht
          injection ht with h1 h2
          have hpt : (['x', '0', '0', '0', 'D', '_'] : List Char) <+: cs :=
            replAux_pre_reflect artifact f _ cs (by decide) ⟨t, h2⟩
          apply hg
          apply List.isPrefixOf_iff_prefix.mpr
          rw [show artifact = '_' :: ['x', '0', '0', '0', 'D', '_'] from rfl, ← h1]
          rcases hpt with ⟨q, hq⟩
          exact ⟨q, by rw [List.cons_append, hq]⟩
        · exact ih cs (by simpa using hlen) hinf

/-- If the artifact does not occur, the artifact scanner is the identity. -/
theorem replAux_noop_absent :
    ∀ (f : Nat) (s : List Char), ¬ artifact <:+: s → replAux artifact [' '] f s = s := by
  intro f
  induction f with
  | zero => intro s _; rfl
  | succ f ih =>
    intro s h
    cases s with
    | nil => rfl
    | cons c cs =>
      rw [replAux, if_neg, ih cs (fun hin => h ((List.infix_cons_iff).mpr (Or.inr hin)))]
      intro hg
      exact h (List.IsPrefix.isInfix (List.isPrefixOf_iff_prefix.mp hg))

/-- Removing the `" IST"` suffix from a space-free core gives back the
core. -/
theorem replAux_ist (a : List Char) (ha : ∀ c ∈ a, c ≠ ' ') :
    ∀ f : Nat, a.length < f → replAux istLabel [] f (a ++ istLabel) = a := by
  induction a with
  | nil =>
    intro f hf
    cases f with
    | zero => omega
    | succ f =>
      rw [List.nil_append, show (istLabel : List Char) = ' ' :: ['I', 'S', 'T'] from rfl,
        replAux, if_pos (by decide), List.nil_append]
      show replAux istLabel [] f ((['I', 'S', 'T'] : List Char).drop 3) = []
      cases f <;> rfl
  | cons c a ih =>
    intro f hf
    cases f with
    | zero => omega
    | succ f =>
      rw [List.cons_append, replAux, if_neg, ih (fun x hx => ha x (List.mem_cons_of_mem c hx)) f
        (by simp only [List.length_cons] at hf; omega)]
      intro hg
      rcases List.isPrefixOf_iff_prefix.mp hg with ⟨t, ht⟩
      rw [show (istLabel : List Char) = ' ' :: ['I', 'S', 'T'] from rfl, List.cons_append] at ht
      injection ht with h1 _
      exact ha c (List.mem_cons_self c a) h1.symm

/-! ### Scanner lemmas: `ctrlAux` -/

theorem ctrlAux_chars :
    ∀ (f : Nat) (s : List Char), s.length ≤ f → ∀ c ∈ ctrlAux f s, isCtrl c = false := by
  intro f
  induction f with
  | zero =>
    intro s hlen
    have : s = [] := List.length_eq_zero.mp (Nat.le_zero.mp hlen)
    subst this
    intro c hc
    cases hc
  | succ f ih =>
    intro s hlen c hc
    cases s with
    | nil => cases hc
    | cons x xs =>
      rw [ctrlAux] at hc
      by_cases hg : isCtrl x = true
      · rw [if_pos hg] at hc
        rcases List.mem_cons.mp hc with rfl | h2
        · decide
        · refine ih (xs.dropWhile isCtrl) ?_ c h2
          have := (List.dropWhile_suffix isCtrl (l := xs)).sublist.length_le
          simp only [List.length_cons] at hlen
          omega
      · rw [if_neg hg] at hc
        rcases List.mem_cons.mp hc with rfl | h2
        · simpa using hg
        · refine ih xs ?_ c h2
          simp only [List.length_cons] at hlen
          omega

theorem ctrlAux_pre_reflect :
    ∀ (f : Nat) (p s : List Char), (∀ c ∈ p, c ≠ ' ') → p <+: ctrlAux f s → p <+: s := by
  intro f
  induction f with
  | zero => intro p s _ h; exact h
  | succ f ih =>
    intro p s hp h
    cases s with
    | nil => simpa [ctrlAux] using h
    | cons x xs =>
      rw [ctrlAux] at h
      by_cases hg : isCtrl x = true
      · rw [if_pos hg] at h
        cases p with
        | nil => exact List.nil_prefix
        | cons ph pt =>
          rcases h with ⟨t, ht⟩
          rw [List.cons_append] at ht
          injection ht with h1 _
          exact absurd h1 (hp ph (List.mem_cons_self ph pt))
      · rw [if_neg hg] at h
        cases p with
        | nil => exact List.nil_prefix
        | cons ph pt =>
          rcases h with ⟨t, ht⟩
          rw [List.cons_append] at ht
          injection ht with h1 h2
          subst h1
          rcases ih pt xs (fun y hy => hp y (List.mem_cons_of_mem ph hy)) ⟨t, h2⟩ with ⟨q, hq⟩
          exact ⟨q, by rw [List.cons_append, hq]⟩

theorem ctrlAux_no_artifact :
    ∀ (f : Nat) (s : List Char), s.length ≤ f → ¬ artifact <:+: s →
      ¬ artifact <:+: ctrlAux f s := by
  intro f
  induction f with
  | zero =>
    intro s _ h
    exact h
  | succ f ih =>
    intro s hlen h hin
    cases s with
    | nil => simp [ctrlAux, artifact] at hin
    | cons x xs =>
      rw [ctrlAux] at hin
      by_cases hg : isCtrl x = true
      · rw [if_pos hg] at hin
        rcases List.infix_cons_iff.mp hin with hpre | hinf
        · rcases hpre with ⟨t, ht⟩
          rw [show artifact = '_' :: ['x', '0', '0', '0', 'D', '_'] from rfl,
            List.cons_append] at ht
          injection ht with h1 _
          cases h1
        · refine ih (xs.dropWhile isCtrl) ?_ ?_ hinf
          · have := (List.dropWhile_suffix isCtrl (l := xs)).sublist.length_le
            simp only [List.length_cons] at hlen
            omega
          · intro hdw
            exact h (List.IsInfix.trans hdw
              (((List.dropWhile_suffix isCtrl).trans (List.suffix_cons x xs)).isInfix))
      · rw [if_neg hg] at hin
        rcases List.infix_cons_iff.mp hin with hpre | hinf
        · rcases hpre with ⟨t, ht⟩
          rw [show artifact = '_' :: ['x', '0', '0', '0', 'D', '_'] from rfl,
            List.cons_append] at ht
          injection ht with h1 h2
          have hpt : (['x', '0', '0', '0', 'D', '_'] : List Char) <+: xs :=
            ctrlAux_pre_reflect f _ xs (by decide) ⟨t, h2⟩
          apply h
          apply List.IsPrefix.isInfix
          rw [show artifact = '_' :: ['x', '0', '0', '0', 'D', '_'] from rfl, ← h1]
          rcases hpt with ⟨q, hq⟩
          exact ⟨q, by rw [List.cons_append, hq]⟩
        · refine ih xs ?_ ?_ hinf
          · simp only [List.length_cons] at hlen
            omega
          · intro hxs
            exact h (List.IsInfix.trans hxs (List.suffix_cons x xs).isInfix)

theorem ctrlAux_noop :
    ∀ (f : Nat) (s : List Char), (∀ c ∈ s, isCtrl c = false) → ctrlAux f s = s := by
  intro f
  induction f with
  | zero => intro s _; rfl
  | succ f ih =>
    intro s h
    cases s with
    | nil => rfl
    | cons x xs =>
      rw [ctrlAux, if_neg (by rw [h x (List.mem_cons_self x xs)]; simp),
        ih xs (fun y hy => h y (List.mem_cons_of_mem x hy))]

/-! ### Word-splitting lemmas -/

theorem wordsAux_nil : ∀ f : Nat, wordsAux f [] = [] := by
  intro f
  cases f <;> rfl

theorem wordsAux_space (f : Nat) (t : List Char) :
    wordsAux (f + 1) (' ' :: t) = wordsAux (f + 1) t := by
  simp only [wordsAux, List.dropWhile_cons_of_pos (show isPySpace ' ' = true by decide)]

theorem words_good :
    ∀ (f : Nat) (s w : List Char), w ∈ wordsAux f s →
      w ≠ [] ∧ ∀ c ∈ w, isPySpace c = false := by
  intro f
  induction f with
  | zero => intro s w hw; cases hw
  | succ f ih =>
    intro s w hw
    rw [wordsAux] at hw
    cases hdw : s.dropWhile isPySpace with
    | nil => rw [hdw] at hw; cases hw
    | cons c cs =>
      rw [hdw] at hw
      rcases List.mem_cons.mp hw with rfl | h2
      · refine ⟨by simp, ?_⟩
        intro x hx
        rcases List.mem_cons.mp hx with rfl | h3
        · exact dw_head hdw
        · have := mem_tw h3
          simpa using this
      · exact ih _ w h2

theorem infix_of_words :
    ∀ (f : Nat) (s w : List Char), w ∈ wordsAux f s → w <:+: s := by
  intro f
  induction f with
  | zero => intro s w hw; cases hw
  | succ f ih =>
    intro s w hw
    rw [wordsAux] at hw
    cases hdw : s.dropWhile isPySpace with
    | nil => rw [hdw] at hw; cases hw
    | cons c cs =>
      rw [hdw] at hw
      have hsf : (c :: cs) <:+ s := hdw ▸ List.dropWhile_suffix isPySpace
      rcases List.mem_cons.mp hw with rfl | h2
      · refine infix_of_pre_suf ?_ hsf
        rcases List.takeWhile_prefix (fun x => !isPySpace x) (l := cs) with ⟨t, ht⟩
        exact ⟨t, by rw [List.cons_append, ht]⟩
      · have hw2 := ih _ w h2
        exact hw2.trans (((List.dropWhile_suffix _).trans
          ((List.suffix_cons c cs).trans hsf)).isInfix)

theorem words_join :
    ∀ (ws : List (List Char)),
      (∀ w ∈ ws, w ≠ [] ∧ ∀ c ∈ w, isPySpace c = false) →
      ∀ f, (joinWords ws).length < f → wordsAux f (joinWords ws) = ws := by
  intro ws
  induction ws with
  | nil => intro _ f _; exact wordsAux_nil f
  | cons w ws ih =>
    intro h f hf
    rcases h w (List.mem_cons_self w ws) with ⟨hne, hchars⟩
    cases w with
    | nil => exact absurd rfl hne
    | cons c cs =>
      have hc : isPySpace c = false := hchars c (List.mem_cons_self c cs)
      have hcs : ∀ x ∈ cs, isPySpace x = false :=
        fun x hx => hchars x (List.mem_cons_of_mem c hx)
      cases ws with
      | nil =>
        cases f with
        | zero => omega
        | succ f =>
          show wordsAux (f + 1) (c :: cs) = [c :: cs]
          rw [wordsAux, List.dropWhile_cons_of_neg (by rw [hc]; simp)]
          show (c :: cs.takeWhile (fun x => !isPySpace x))
              :: wordsAux f (cs.dropWhile (fun x => !isPySpace x)) = [c :: cs]
          rw [tw_all (by intro x hx; simp [hcs x hx]),
            dw_all (by intro x hx; simp [hcs x hx]), wordsAux_nil]
      | cons w2 rest =>
        cases f with
        | zero => omega
        | succ f =>
          have hJ : joinWords ((c :: cs) :: w2 :: rest) =
              (c :: cs) ++ ' ' :: joinWords (w2 :: rest) := rfl
          have htw : (cs ++ ' ' :: joinWords (w2 :: rest)).takeWhile (fun x => !isPySpace x)
              = cs := by
            rw [tw_append_of_all _ (by intro x hx; simp [hcs x hx]),
              List.takeWhile_cons_of_neg (by decide), List.append_nil]
          have hdw : (cs ++ ' ' :: joinWords (w2 :: rest)).dropWhile (fun x => !isPySpace x)
              = ' ' :: joinWords (w2 :: rest) := by
            rw [dw_append_of_all _ (by intro x hx; simp [hcs x hx]),
              List.dropWhile_cons_of_neg (by decide)]
          rw [hJ, wordsAux, List.cons_append,
            List.dropWhile_cons_of_neg (by rw [hc]; simp)]
          show (c :: (cs ++ ' ' :: joinWords (w2 :: rest)).takeWhile (fun x => !isPySpace x))
              :: wordsAux f ((cs ++ ' ' :: joinWords (w2 :: rest)).dropWhile
                (fun x => !isPySpace x))
              = (c :: cs) :: w2 :: rest
          rw [htw, hdw]
          have hflen : (joinWords (w2 :: rest)).length < f := by
            rw [hJ] at hf
            simp only [List.length_append, List.length_cons] at hf ⊢
            omega
          cases f with
          | zero => omega
          | succ f =>
            rw [wordsAux_space, ih (fun x hx => h x (List.mem_cons_of_mem _ hx)) (f + 1) hflen]

theorem pyWords_joinWords (ws : List (List Char))
    (h : ∀ w ∈ ws, w ≠ [] ∧ ∀ c ∈ w, isPySpace c = false) :
    pyWords (joinWords ws) = ws :=
  words_join ws h _ (Nat.lt_succ_self _)

theorem mem_joinWords :
    ∀ (ws : List (List Char)) (c : Char), c ∈ joinWords ws → c = ' ' ∨ ∃ w ∈ ws, c ∈ w := by
  intro ws
  induction ws with
  | nil => intro c hc; cases hc
  | cons w ws ih =>
    intro c hc
    cases ws with
    | nil => exact Or.inr ⟨w, List.mem_cons_self w [], hc⟩
    | cons w2 rest =>
      rw [show joinWords (w :: w2 :: rest) = w ++ ' ' :: joinWords (w2 :: rest) from rfl] at hc
      rcases List.mem_append.mp hc with h1 | h2
      · exact Or.inr ⟨w, List.mem_cons_self w _, h1⟩
      · rcases List.mem_cons.mp h2 with rfl | h3
        · exact Or.inl rfl
        · rcases ih c h3 with h4 | ⟨w3, hw3, hcw3⟩
          · exact Or.inl h4
          · exact Or.inr ⟨w3, List.mem_cons_of_mem w hw3, hcw3⟩

theorem infix_joinWords :
    ∀ (ws : List (List Char)) (p : List Char), p ≠ [] → (∀ c ∈ p, c ≠ ' ') →
      p <:+: joinWords ws → ∃ w ∈ ws, p <:+: w := by
  intro ws
  induction ws with
  | nil =>
    intro p hne _ h
    exact absurd (List.infix_nil.mp h) hne
  | cons w ws ih =>
    intro p hne hsp h
    cases ws with
    | nil => exact ⟨w, List.mem_cons_self w [], h⟩
    | cons w2 rest =>
      rw [show joinWords (w :: w2 :: rest) = w ++ ' ' :: joinWords (w2 :: rest) from rfl] at h
      rcases infix_append_split h with h1 | h2 | ⟨p1, p2, hp, hp1, hp2, _, hpre⟩
      · exact ⟨w, List.mem_cons_self w _, h1⟩
      · rcases List.infix_cons_iff.mp h2 with hpre | hinf
        · cases p with
          | nil => exact absurd rfl hne
          | cons ph pt =>
            rcases hpre with ⟨t, ht⟩
            rw [List.cons_append] at ht
            injection ht with h1 _
            exact absurd h1 (hsp ph (List.mem_cons_self ph pt))
        · rcases ih p hne hsp hinf with ⟨w3, hw3, hin3⟩
          exact ⟨w3, List.mem_cons_of_mem w hw3, hin3⟩
      · cases p2 with
        | nil => exact absurd rfl hp2
        | cons q qt =>
          rcases hpre with ⟨t, ht⟩
          rw [List.cons_append] at ht
          injection ht with h1 _
          refine absurd h1 (hsp q ?_)
          rw [hp]
          exact List.mem_append.mpr (Or.inr (List.mem_cons_self q qt))

/-! ### Master lemmas about `cleanStr` -/

theorem cleanStr_no_artifact (s : List Char) : ¬ artifact <:+: cleanStr s := by
  intro h
  have h1 : ¬ artifact <:+: pyReplace artifact [' '] s :=
    replAux_no_artifact s.length s (le_refl _)
  have h2 : ¬ artifact <:+: stripCtrl (pyReplace artifact [' '] s) :=
    ctrlAux_no_artifact _ _ (le_refl _) h1
  rcases infix_joinWords _ artifact (by decide) (by decide) h with ⟨w, hw, hinf⟩
  exact h2 (hinf.trans (infix_of_words _ _ w hw))

theorem cleanStr_no_ctrl (s : List Char) : ∀ c ∈ cleanStr s, isCtrl c = false := by
  intro c hc
  rcases mem_joinWords _ c hc with rfl | ⟨w, hw, hcw⟩
  · decide
  · have h1 := infix_of_words _ _ w hw
    exact ctrlAux_chars _ _ (le_refl _) c (h1.sublist.subset hcw)

theorem cleanStr_words (s : List Char) :
    ∃ ws, cleanStr s = joinWords ws ∧ ∀ w ∈ ws, w ≠ [] ∧ ∀ c ∈ w, isPySpace c = false :=
  ⟨pyWords (stripCtrl (pyReplace artifact [' '] s)), rfl,
    fun w hw => words_good _ _ w hw⟩

theorem cleanStr_idem (s : List Char) : cleanStr (cleanStr s) = cleanStr s := by
  have h1 : pyReplace artifact [' '] (cleanStr s) = cleanStr s :=
    replAux_noop_absent _ _ (cleanStr_no_artifact s)
  have h2 : stripCtrl (cleanStr s) = cleanStr s :=
    ctrlAux_noop _ _ (cleanStr_no_ctrl s)
  show joinWords (pyWords (stripCtrl (pyReplace artifact [' '] (cleanStr s)))) = cleanStr s
  rw [h1, h2]
  exact congrArg joinWords (pyWords_joinWords _ (fun w hw => words_good _ _ w hw))

/-- Claim C5: on every string the Text Normalizer returns a string with no
occurrence of the `_x000D_` artifact and no control characters (code points
below 0x20), equal to a single-space join of nonempty whitespace-free words
(so whitespace runs are collapsed and the ends are trimmed); every
non-string input is returned unchanged (and the function is total by
construction). -/
theorem C5_clean_text :
    (∀ s : List Char, ¬ artifact <:+: cleanStr s)
    ∧ (∀ s : List Char, ∀ c ∈ cleanStr s, isCtrl c = false)
    ∧ (∀ s : List Char, ∃ ws, cleanStr s = joinWords ws ∧
        ∀ w ∈ ws, w ≠ [] ∧ ∀ c ∈ w, isPySpace c = false)
    ∧ (∀ tag : Nat, clean_text (.nonstr tag) = .nonstr tag) :=
  ⟨cleanStr_no_artifact, cleanStr_no_ctrl, cleanStr_words, fun _ => rfl⟩

/-- Claim C5, witness at a concrete input. -/
theorem C5_witness :
    ¬ artifact <:+: cleanStr (("a_x000D_ \u0001 b".data)) :=
  C5_clean_text.1 (("a_x000D_ \u0001 b".data))

/-! ### Idempotence machinery for claim C9 -/

theorem reRow_start (h1 d1 h2 d2 : Bool) (raw : RawRow) :
    (enrichRow h2 d2 (toRawRow (enrichRow h1 d1 raw))).startInstant
      = (enrichRow h1 d1 raw).startInstant := by
  rw [enrichRow_startInstant, enrichRow_startInstant,
    show (toRawRow (enrichRow h1 d1 raw)).date = cleanStr raw.date from rfl,
    show (toRawRow (enrichRow h1 d1 raw)).time = cleanStr raw.time from rfl,
    cleanStr_idem, cleanStr_idem]

theorem reRow_end (h1 d1 h2 d2 : Bool) (raw : RawRow) :
    (enrichRow h2 d2 (toRawRow (enrichRow h1 d1 raw))).endInstant
      = (enrichRow h1 d1 raw).endInstant := by
  rw [enrichRow_endInstant, enrichRow_endInstant, enrichRow_startInstant,
    enrichRow_startInstant,
    show (toRawRow (enrichRow h1 d1 raw)).date = cleanStr raw.date from rfl,
    show (toRawRow (enrichRow h1 d1 raw)).time = cleanStr raw.time from rfl,
    cleanStr_idem, cleanStr_idem]

theorem reRow_week (h1 d1 h2 d2 : Bool) (raw : RawRow) :
    (enrichRow h2 d2 (toRawRow (enrichRow h1 d1 raw))).week
      = (enrichRow h1 d1 raw).week := by
  show cleanStr (cleanStr raw.week) = cleanStr raw.week
  exact cleanStr_idem raw.week

theorem rowLE_congr {a a' b b' : Row} (ha1 : a'.startInstant = a.startInstant)
    (ha2 : a'.week = a.week) (hb1 : b'.startInstant = b.startInstant)
    (hb2 : b'.week = b.week) : rowLE a' b' = rowLE a b := by
  unfold rowLE
  rw [ha1, hb1, ha2, hb2]

/-- Claim C9: the Schedule Enricher is deterministic (a pure function: equal
inputs give equal outputs), and re-running it on the raw fields underlying
its own output reproduces the same start and end instants row for row. -/
theorem C9_idempotent :
    (∀ t : RawTable, enrich_schedule t = enrich_schedule t)
    ∧ ∀ t : RawTable,
        (enrich_schedule (toRawTable (enrich_schedule t))).map
            (fun r => (r.startInstant, r.endInstant))
          = (enrich_schedule t).map (fun r => (r.startInstant, r.endInstant)) := by
  refine ⟨fun _ => rfl, ?_⟩
  intro t
  have hL : List.Sorted (fun a b => rowLE a b = true) (enrich_schedule t) :=
    List.sorted_insertionSort _ _
  have hstep : enrich_schedule (toRawTable (enrich_schedule t)) =
      List.insertionSort (fun a b => rowLE a b = true)
        ((enrich_schedule t).map (fun r => enrichRow true true (toRawRow r))) := by
    show List.insertionSort (fun a b => rowLE a b = true)
        (((enrich_schedule t).map toRawRow).map (enrichRow true true)) = _
    rw [List.map_map]
    rfl
  have hkey : ∀ r ∈ enrich_schedule t,
      (enrichRow true true (toRawRow r)).startInstant = r.startInstant ∧
      (enrichRow true true (toRawRow r)).endInstant = r.endInstant ∧
      (enrichRow true true (toRawRow r)).week = r.week := by
    intro r hr
    rcases mem_enrich_schedule.mp hr with ⟨raw, _, heq⟩
    subst heq
    exact ⟨reRow_start _ _ _ _ raw, reRow_end _ _ _ _ raw, reRow_week _ _ _ _ raw⟩
  have hsorted2 : List.Sorted (fun a b => rowLE a b = true)
      ((enrich_schedule t).map (fun r => enrichRow true true (toRawRow r))) := by
    rw [List.Sorted, List.pairwise_map]
    refine List.Pairwise.imp_of_mem ?_ hL
    intro a b ha hb hab
    rw [rowLE_congr (hkey a ha).1 (hkey a ha).2.2 (hkey b hb).1 (hkey b hb).2.2]
    exact hab
  rw [hstep, List.Sorted.insertionSort_eq hsorted2, List.map_map]
  refine List.map_congr_left ?_
  intro r hr
  simp only [Function.comp]
  rw [(hkey r hr).1, (hkey r hr).2.1]

/-! ### Character facts for rendered time strings -/

theorem digitAscii_isDigit : ∀ n : Nat, (digitAscii n).isDigit = true := by
  intro n
  unfold digitAscii
  split <;> decide

theorem digitAscii_not_space : ∀ n : Nat, isPySpace (digitAscii n) = false := by
  intro n
  unfold digitAscii
  split <;> decide

theorem digitAscii_not_ctrl : ∀ n : Nat, isCtrl (digitAscii n) = false := by
  intro n
  unfold digitAscii
  split <;> decide

theorem digitAscii_ne_und : ∀ n : Nat, digitAscii n ≠ '_' := by
  intro n
  unfold digitAscii
  split <;> decide

theorem digitAscii_ne_space : ∀ n : Nat, digitAscii n ≠ ' ' := by
  intro n
  unfold digitAscii
  split <;> decide

theorem digitAscii_ne_dash : ∀ n : Nat, digitAscii n ≠ '-' := by
  intro n
  unfold digitAscii
  split <;> decide

theorem digitAscii_ne_endash : ∀ n : Nat, digitAscii n ≠ '–' := by
  intro n
  unfold digitAscii
  split <;> decide

theorem dval_digitAscii : ∀ n < 10, dval (digitAscii n) = n := by decide

theorem ne_space_of_not_pyspace {c : Char} (h : isPySpace c = false) : c ≠ ' ' := by
  intro he
  subst he
  exact absurd h (by decide)

theorem pad2_chars {c : Char} {n : Nat} (h : c ∈ pad2 n) : ∃ k, c = digitAscii k := by
  simp only [pad2, List.mem_cons, List.not_mem_nil, or_false] at h
  rcases h with rfl | rfl
  · exact ⟨_, rfl⟩
  · exact ⟨_, rfl⟩

theorem render1_mem {c : Char} {h m : Nat} (hc : c ∈ pad2 h ++ ':' :: pad2 m) :
    (∃ k, c = digitAscii k) ∨ c = ':' := by
  rcases List.mem_append.mp hc with h1 | h2
  · exact Or.inl (pad2_chars h1)
  · rcases List.mem_cons.mp h2 with rfl | h3
    · exact Or.inr rfl
    · exact Or.inl (pad2_chars h3)

theorem render1_facts (h m : Nat) :
    (∀ c ∈ pad2 h ++ ':' :: pad2 m, isPySpace c = false)
    ∧ (∀ c ∈ pad2 h ++ ':' :: pad2 m, isCtrl c = false)
    ∧ (∀ c ∈ pad2 h ++ ':' :: pad2 m, c ≠ '_')
    ∧ (∀ c ∈ pad2 h ++ ':' :: pad2 m, c ≠ '–')
    ∧ (∀ c ∈ pad2 h ++ ':' :: pad2 m, c ≠ '-') := by
  refine ⟨?_, ?_, ?_, ?_, ?_⟩ <;> intro c hc <;>
    rcases render1_mem hc with ⟨k, rfl⟩ | rfl <;>
    first
      | exact digitAscii_not_space k
      | exact digitAscii_not_ctrl k
      | exact digitAscii_ne_und k
      | exact digitAscii_ne_endash k
      | exact digitAscii_ne_dash k
      | decide

theorem render1_ne_nil (h m : Nat) : pad2 h ++ ':' :: pad2 m ≠ [] := by
  simp [pad2]

/-! ### `parseHM` on rendered strings -/

theorem parseHM_pad2 (h m : Nat) (hh : h ≤ 23) (hm : m ≤ 59) :
    parseHM (pad2 h ++ ':' :: pad2 m) = some ⟨h, m⟩ := by
  have e1 : dval (digitAscii (h / 10 % 10)) = h / 10 % 10 := dval_digitAscii _ (by omega)
  have e2 : dval (digitAscii (h % 10)) = h % 10 := dval_digitAscii _ (by omega)
  have e3 : dval (digitAscii (m / 10 % 10)) = m / 10 % 10 := dval_digitAscii _ (by omega)
  have e4 : dval (digitAscii (m % 10)) = m % 10 := dval_digitAscii _ (by omega)
  show parseHM [digitAscii (h / 10 % 10), digitAscii (h % 10), ':',
    digitAscii (m / 10 % 10), digitAscii (m % 10)] = some ⟨h, m⟩
  simp only [parseHM, e1, e2, e3, e4, digitAscii_isDigit, Bool.true_and]
  split_ifs with hcond
  · have hv1 : 10 * (h / 10 % 10) + h % 10 = h := by omega
    have hv2 : 10 * (m / 10 % 10) + m % 10 = m := by omega
    rw [hv1, hv2]
  · exfalso
    apply hcond
    simp only [Bool.and_eq_true, decide_eq_true_eq]
    omega

theorem parseHM_pad2_oor (h m : Nat) (hh : h ≤ 99) (hm : m ≤ 99)
    (hbad : 23 < h ∨ 59 < m) :
    parseHM (pad2 h ++ ':' :: pad2 m) = none := by
  have e1 : dval (digitAscii (h / 10 % 10)) = h / 10 % 10 := dval_digitAscii _ (by omega)
  have e2 : dval (digitAscii (h % 10)) = h % 10 := dval_digitAscii _ (by omega)
  have e3 : dval (digitAscii (m / 10 % 10)) = m / 10 % 10 := dval_digitAscii _ (by omega)
  have e4 : dval (digitAscii (m % 10)) = m % 10 := dval_digitAscii _ (by omega)
  show parseHM [digitAscii (h / 10 % 10), digitAscii (h % 10), ':',
    digitAscii (m / 10 % 10), digitAscii (m % 10)] = none
  simp only [parseHM, e1, e2, e3, e4, digitAscii_isDigit, Bool.true_and]
  split_ifs with hcond
  · exfalso
    simp only [Bool.and_eq_true, decide_eq_true_eq] at hcond
    omega
  · rfl

/-! ### Pipeline no-op lemmas for rendered strings -/

theorem pyStrip_noop {s : List Char} (h : ∀ c ∈ s, isPySpace c = false) : pyStrip s = s := by
  unfold pyStrip
  rw [dw_none h, dw_none (fun c hc => h c (List.mem_reverse.mp hc)), List.reverse_reverse]

theorem cleanStr_joinWords (ws : List (List Char))
    (good : ∀ w ∈ ws, w ≠ [] ∧ ∀ c ∈ w, isPySpace c = false)
    (hart : ∀ w ∈ ws, ∀ c ∈ w, c ≠ '_')
    (hctrl : ∀ w ∈ ws, ∀ c ∈ w, isCtrl c = false) :
    cleanStr (joinWords ws) = joinWords ws := by
  have h1 : pyReplace artifact [' '] (joinWords ws) = joinWords ws := by
    refine replAux_noop _ _ ?_
    intro c hc
    rcases mem_joinWords ws c hc with rfl | ⟨w, hw, hcw⟩
    · decide
    · exact hart w hw c hcw
  have h2 : stripCtrl (joinWords ws) = joinWords ws := by
    refine ctrlAux_noop _ _ ?_
    intro c hc
    rcases mem_joinWords ws c hc with rfl | ⟨w, hw, hcw⟩
    · decide
    · exact hctrl w hw c hcw
  show joinWords (pyWords (stripCtrl (pyReplace artifact [' '] (joinWords ws))))
      = joinWords ws
  rw [h1, h2, pyWords_joinWords ws good]

theorem cleanStr_plain (core : List Char) (hne : core ≠ [])
    (hsp : ∀ c ∈ core, isPySpace c = false)
    (hctrl : ∀ c ∈ core, isCtrl c = false)
    (hart : ∀ c ∈ core, c ≠ '_') :
    cleanStr core = core := by
  have := cleanStr_joinWords [core]
    (by intro w hw; rcases List.mem_cons.mp hw with rfl | h0
        · exact ⟨hne, hsp⟩
        · cases h0)
    (by intro w hw; rcases List.mem_cons.mp hw with rfl | h0
        · exact hart
        · cases h0)
    (by intro w hw; rcases List.mem_cons.mp hw with rfl | h0
        · exact hctrl
        · cases h0)
  exact this

theorem cleanStr_plain_ist (core : List Char) (hne : core ≠ [])
    (hsp : ∀ c ∈ core, isPySpace c = false)
    (hctrl : ∀ c ∈ core, isCtrl c = false)
    (hart : ∀ c ∈ core, c ≠ '_') :
    cleanStr (core ++ istLabel) = core ++ istLabel := by
  have := cleanStr_joinWords [core, ['I', 'S', 'T']]
    (by intro w hw
        rcases List.mem_cons.mp hw with rfl | h0
        · exact ⟨hne, hsp⟩
        · rcases List.mem_cons.mp h0 with rfl | h1
          · exact ⟨by decide, by decide⟩
          · cases h1)
    (by intro w hw
        rcases List.mem_cons.mp hw with rfl | h0
        · exact hart
        · rcases List.mem_cons.mp h0 with rfl | h1
          · decide
          · cases h1)
    (by intro w hw
        rcases List.mem_cons.mp hw with rfl | h0
        · exact hctrl
        · rcases List.mem_cons.mp h0 with rfl | h1
          · decide
          · cases h1)
  exact this

theorem pyReplace_ist_noop {s : List Char} (h : ∀ c ∈ s, c ≠ ' ') :
    pyReplace istLabel [] s = s :=
  replAux_noop _ _ h

theorem pyReplace_ist_strip (core : List Char) (h : ∀ c ∈ core, c ≠ ' ') :
    pyReplace istLabel [] (core ++ istLabel) = core := by
  refine replAux_ist core h _ ?_
  simp [istLabel]

theorem map_dashfix_no {s : List Char} (h : ∀ c ∈ s, c ≠ '–') :
    s.map (fun c => if c = '–' then '-' else c) = s := by
  induction s with
  | nil => rfl
  | cons x xs ih =>
    rw [List.map_cons, if_neg (h x (List.mem_cons_self x xs)),
      ih (fun c hc => h c (List.mem_cons_of_mem x hc))]

theorem pySplit_no_sep (sep : Char) :
    ∀ s : List Char, (∀ c ∈ s, c ≠ sep) → pySplit sep s = [s] := by
  intro s
  induction s with
  | nil => intro _; rfl
  | cons c cs ih =>
    intro h
    rw [pySplit, if_neg (h c (List.mem_cons_self c cs)),
      ih (fun x hx => h x (List.mem_cons_of_mem c hx))]

theorem pySplit_mid (sep : Char) (A B : List Char) (hA : ∀ c ∈ A, c ≠ sep) :
    pySplit sep (A ++ sep :: B) = A :: pySplit sep B := by
  induction A with
  | nil =>
    rw [List.nil_append, pySplit, if_pos rfl]
  | cons a A ih =>
    rw [List.cons_append, pySplit, if_neg (hA a (List.mem_cons_self a A)),
      ih (fun x hx => hA x (List.mem_cons_of_mem a hx))]

/-- Evaluating `parse_time_range` on a clean, space-free core (with an
optional `" IST"` label) reduces to dash-normalising, splitting and
parsing. -/
theorem ptr_pipeline (core : List Char) (hne : core ≠ [])
    (hsp : ∀ c ∈ core, isPySpace c = false)
    (hctrl : ∀ c ∈ core, isCtrl c = false)
    (hart : ∀ c ∈ core, c ≠ '_') (ist : Bool) :
    parse_time_range (.str (core ++ (if ist then istLabel else []))) =
      match (pySplit '-' (core.map (fun c => if c = '–' then '-' else c))).map pyStrip with
      | [] => (none, none)
      | [p] => (parseHM p, none)
      | p :: q :: _ => (parseHM p, parseHM q) := by
  have hnsp : ∀ c ∈ core, c ≠ ' ' := fun c hc => ne_space_of_not_pyspace (hsp c hc)
  cases ist with
  | false =>
    rw [show (if (false : Bool) then istLabel else []) = ([] : List Char) from rfl,
      List.append_nil]
    show (match (pySplit '-' ((pyStrip (pyReplace istLabel [] (cleanStr core))).map
        (fun c => if c = '–' then '-' else c))).map pyStrip with
      | [] => ((none : Option ClockTime), (none : Option ClockTime))
      | [p] => (parseHM p, none)
      | p :: q :: _ => (parseHM p, parseHM q)) = _
    rw [cleanStr_plain core hne hsp hctrl hart, pyReplace_ist_noop hnsp, pyStrip_noop hsp]
  | true =>
    rw [show (if (true : Bool) then istLabel else []) = istLabel from rfl]
    show (match (pySplit '-' ((pyStrip (pyReplace istLabel []
        (cleanStr (core ++ istLabel)))).map
        (fun c => if c = '–' then '-' else c))).map pyStrip with
      | [] => ((none : Option ClockTime), (none : Option ClockTime))
      | [p] => (parseHM p, none)
      | p :: q :: _ => (parseHM p, parseHM q)) = _
    rw [cleanStr_plain_ist core hne hsp hctrl hart, pyReplace_ist_strip core hnsp,
      pyStrip_noop hsp]

theorem ptr_single (h m : Nat) (ist : Bool) :
    parse_time_range (.str ((pad2 h ++ ':' :: pad2 m) ++ (if ist then istLabel else []))) =
      (parseHM (pad2 h ++ ':' :: pad2 m), none) := by
  obtain ⟨f1, f2, f3, f4, f5⟩ := render1_facts h m
  rw [ptr_pipeline _ (render1_ne_nil h m) f1 f2 f3 ist, map_dashfix_no f4,
    pySplit_no_sep '-' _ f5]
  simp only [List.map_cons, List.map_nil, pyStrip_noop f1]

theorem ptr_range (h1 m1 h2 m2 : Nat) (dash : Char) (ist : Bool)
    (hdash : dash = '-' ∨ dash = '–') :
    parse_time_range (.str (((pad2 h1 ++ ':' :: pad2 m1) ++ dash ::
        (pad2 h2 ++ ':' :: pad2 m2)) ++ (if ist then istLabel else []))) =
      (parseHM (pad2 h1 ++ ':' :: pad2 m1), parseHM (pad2 h2 ++ ':' :: pad2 m2)) := by
  obtain ⟨a1, a2, a3, a4, a5⟩ := render1_facts h1 m1
  obtain ⟨b1, b2, b3, b4, b5⟩ := render1_facts h2 m2
  have hsplit : ∀ (P : Char → Prop), P dash → (∀ c ∈ pad2 h1 ++ ':' :: pad2 m1, P c) →
      (∀ c ∈ pad2 h2 ++ ':' :: pad2 m2, P c) →
      ∀ c ∈ (pad2 h1 ++ ':' :: pad2 m1) ++ dash :: (pad2 h2 ++ ':' :: pad2 m2), P c := by
    intro P hd hA hB c hc
    rcases List.mem_append.mp hc with h1 | h2
    · exact hA c h1
    · rcases List.mem_cons.mp h2 with rfl | h3
      · exact hd
      · exact hB c h3
  have f1 := hsplit (fun c => isPySpace c = false)
    (by rcases hdash with rfl | rfl <;> decide) a1 b1
  have f2 := hsplit (fun c => isCtrl c = false)
    (by rcases hdash with rfl | rfl <;> decide) a2 b2
  have f3 := hsplit (fun c => c ≠ '_')
    (by rcases hdash with rfl | rfl <;> decide) a3 b3
  have hne : (pad2 h1 ++ ':' :: pad2 m1) ++ dash :: (pad2 h2 ++ ':' :: pad2 m2) ≠ [] := by
    simp [pad2]
  rw [ptr_pipeline _ hne f1 f2 f3 ist]
  have p4 : ∀ n : Nat, (pad2 n).map (fun c => if c = '–' then '-' else c) = pad2 n := by
    intro n
    refine map_dashfix_no ?_
    intro c hc
    rcases pad2_chars hc with ⟨k, rfl⟩
    exact digitAscii_ne_endash k
  have hmap : ((pad2 h1 ++ ':' :: pad2 m1) ++ dash :: (pad2 h2 ++ ':' :: pad2 m2)).map
      (fun c => if c = '–' then '-' else c)
      = (pad2 h1 ++ ':' :: pad2 m1) ++ '-' :: (pad2 h2 ++ ':' :: pad2 m2) := by
    rcases hdash with rfl | rfl <;> simp [List.map_append, p4]
  rw [hmap, pySplit_mid '-' _ _ a5, pySplit_no_sep '-' _ b5]
  simp only [List.map_cons, List.map_nil, pyStrip_noop a1, pyStrip_noop b1]

/-- Claim C3: the Time-Range Parser parses every valid `"HH:MM-HH:MM"` input
(hyphen or en-dash, with or without the `" IST"` label) into both clock
times; a lone `"HH:MM"` gives a start time and an absent end; a non-string
gives `(absent, absent)`; an out-of-range hour or minute makes only that
component absent; and the parser always returns a pair (it is total, so it
never raises). -/
theorem C3_time_range :
    (∀ (h1 m1 h2 m2 : Nat) (dash : Char) (ist : Bool), h1 ≤ 23 → m1 ≤ 59 → h2 ≤ 23 →
      m2 ≤ 59 → dash = '-' ∨ dash = '–' →
      parse_time_range (.str (((pad2 h1 ++ ':' :: pad2 m1) ++ dash ::
          (pad2 h2 ++ ':' :: pad2 m2)) ++ (if ist then istLabel else []))) =
        (some ⟨h1, m1⟩, some ⟨h2, m2⟩))
    ∧ (∀ (h m : Nat) (ist : Bool), h ≤ 23 → m ≤ 59 →
      parse_time_range (.str ((pad2 h ++ ':' :: pad2 m) ++ (if ist then istLabel else []))) =
        (some ⟨h, m⟩, none))
    ∧ (∀ tag : Nat, parse_time_range (.nonstr tag) = (none, none))
    ∧ (∀ h m : Nat, h ≤ 99 → m ≤ 99 → 23 < h ∨ 59 < m →
      parse_time_range (.str (pad2 h ++ ':' :: pad2 m)) = (none, none))
    ∧ (∀ h1 m1 h2 m2 : Nat, h1 ≤ 23 → m1 ≤ 59 → h2 ≤ 99 → m2 ≤ 99 → 23 < h2 ∨ 59 < m2 →
      parse_time_range (.str ((pad2 h1 ++ ':' :: pad2 m1) ++ '-' ::
          (pad2 h2 ++ ':' :: pad2 m2))) = (some ⟨h1, m1⟩, none))
    ∧ (∀ v : PyVal, ∃ p q, parse_time_range v = (p, q)) := by
  refine ⟨?_, ?_, fun _ => rfl, ?_, ?_, fun v => ⟨_, _, rfl⟩⟩
  · intro h1 m1 h2 m2 dash ist hh1 hm1 hh2 hm2 hdash
    rw [ptr_range h1 m1 h2 m2 dash ist hdash, parseHM_pad2 h1 m1 hh1 hm1,
      parseHM_pad2 h2 m2 hh2 hm2]
  · intro h m ist hh hm
    rw [ptr_single h m ist, parseHM_pad2 h m hh hm]
  · intro h m hh hm hbad
    have h0 := ptr_single h m false
    rw [show (if (false : Bool) then istLabel else []) = ([] : List Char) from rfl,
      List.append_nil] at h0
    rw [h0, parseHM_pad2_oor h m hh hm hbad]
  · intro h1 m1 h2 m2 hh1 hm1 hh2 hm2 hbad
    have h0 := ptr_range h1 m1 h2 m2 '-' false (Or.inl rfl)
    rw [show (if (false : Bool) then istLabel else []) = ([] : List Char) from rfl,
      List.append_nil] at h0
    rw [h0, parseHM_pad2 h1 m1 hh1 hm1, parseHM_pad2_oor h2 m2 hh2 hm2 hbad]

/-- Claim C3, witness: `"15:30–16:00 IST"` parses to both times. -/
theorem C3_witness :
    parse_time_range (.str (((pad2 15 ++ ':' :: pad2 30) ++ '–' ::
        (pad2 16 ++ ':' :: pad2 0)) ++ (if true then istLabel else []))) =
      (some ⟨15, 30⟩, some ⟨16, 0⟩) :=
  C3_time_range.1 15 30 16 0 '–' true (by decide) (by decide) (by decide) (by decide)
    (Or.inr rfl)

/-- The first of two demonstration rows with both instants present. -/
def demoRow1 : Row :=
  { date := [], time := [], week := ("W1".data), monthNum := none, dayName := none,
    manager := [], participants := [], locationFocus := [], modeOfConnect := [],
    startInstant := some 1065586530, endInstant := some 1065586560 }

/-- The second demonstration row. -/
def demoRow2 : Row :=
  { date := [], time := [], week := ("W2".data), monthNum := none, dayName := none,
    manager := [], participants := [], locationFocus := [], modeOfConnect := [],
    startInstant := some 1065596530, endInstant := some 1065596560 }

/-- An enriched row with neither instant present. -/
def pdNoneRow : Row :=
  { date := [], time := [], week := ("W3".data), monthNum := none, dayName := none,
    manager := [], participants := [], locationFocus := [], modeOfConnect := [],
    startInstant := none, endInstant := none }

/-- Claim C8 (code bug): the export does NOT silently skip a row lacking an
instant inside a mixed enriched table — its cells are `pd.NaT`, a `datetime`
instance, so the `isinstance` guard passes and `strftime` raises
`ValueError`, aborting the whole export (first conjunct).  The skip path
only fires when every row of the column lacks an instant, so the cells stay
`None` (second conjunct: header and footer only, no error), and a
fully-present table exports exactly one `BEGIN:VEVENT` block per row (third
conjunct). -/
theorem C8_export_raises :
    ics_from_rows [demoRow1, pdNoneRow] (("Cal".data)) = .error ()
    ∧ icsLinesE [pdNoneRow] (("Cal".data)) =
        .ok [("BEGIN:VCALENDAR".data), ("VERSION:2.0".data),
          ("PRODID:-//CoffeeConnect//Schedule//EN".data), ("X-WR-CALNAME:Cal".data),
          ("END:VCALENDAR".data)]
    ∧ (icsLinesE [demoRow1, demoRow2] (("Cal".data))).map
        (List.count (("BEGIN:VEVENT".data))) = .ok 2 := by
  refine ⟨?_, ?_, ?_⟩ <;> rfl

/-- Claim C10: the generated UID line is a function of the UTC start
timestamp, the week label and a fixed suffix only, so two exported rows with
equal `start_instant` and equal `week_label` receive identical UID lines. -/
theorem C10_uid : ∀ (r1 r2 : Row) (s e1 e2 : Nat),
    r1.startInstant = some s → r2.startInstant = some s →
    r1.endInstant = some e1 → r2.endInstant = some e2 →
    r1.week = r2.week →
    (evLines r1)[1]? = (evLines r2)[1]? := by
  intro r1 r2 s e1 e2 h1 h2 h3 h4 hw
  simp [evLines, h1, h2, h3, h4, hw]

/-- A row sharing `start_instant` and `week_label` with `uidRow2` but with a
different end instant and manager. -/
def uidRow1 : Row :=
  { date := [], time := [], week := ("W7".data), monthNum := none, dayName := none,
    manager := ("A".data), participants := [], locationFocus := [], modeOfConnect := [],
    startInstant := some 1065586530, endInstant := some 1065586560 }

/-- A row sharing `start_instant` and `week_label` with `uidRow1`. -/
def uidRow2 : Row :=
  { date := [], time := [], week := ("W7".data), monthNum := none, dayName := none,
    manager := ("B".data), participants := [], locationFocus := [], modeOfConnect := [],
    startInstant := some 1065586530, endInstant := some 1065590000 }

/-- Claim C10, witness: two distinct rows with equal start and week receive
the same UID line. -/
theorem C10_witness : (evLines uidRow1)[1]? = (evLines uidRow2)[1]? :=
  C10_uid uidRow1 uidRow2 1065586530 1065586560 1065590000 rfl rfl rfl rfl rfl

/-! ### Remaining witnesses -/

/-- Claim C1, witness for the amended theorem at the backwards-range row. -/
theorem C1_witness :
    ∃ e, (enrichRow true true revRow).endInstant = some e ∧
      (e < 1065586560 → ∃ raw ∈ revTable.rows,
        enrichRow revTable.hasMonthNum revTable.hasDay raw = enrichRow true true revRow ∧
        ∃ st et, (parse_time_range (.str (pyStrip (cleanStr raw.time)))).1 = some st ∧
          (parse_time_range (.str (pyStrip (cleanStr raw.time)))).2 = some et ∧
          60 * et.hour + et.minute < 60 * st.hour + st.minute) :=
  C1_endInstant revTable (enrichRow true true revRow) (by decide) 1065586560 (by decide)

/-- A row strictly inside the upcoming window boundary. -/
def winRow : Row :=
  { date := [], time := [], week := [], monthNum := none, dayName := none, manager := [],
    participants := [], locationFocus := [], modeOfConnect := [],
    startInstant := some 6, endInstant := some 6 }

/-- Claim C2, witness: with `now = 4` and positive horizon `2`, the row
starting exactly at `now + horizon` is returned. -/
theorem C2_witness : winRow ∈ upcoming_between [winRow] 4 2 :=
  (C2_upcoming [winRow] 4 2).2.2.2.2 winRow (by decide) (by decide) (by decide)

/-- Claim C4, witness: the scenario row gets the 30-minute default end. -/
theorem C4_witness :
    (enrichRow true true schedRow).startInstant = some (mkMin ⟨2026, 3, 10⟩ ⟨15, 30⟩) ∧
    (enrichRow true true schedRow).endInstant = some (mkMin ⟨2026, 3, 10⟩ ⟨15, 30⟩ + 30) :=
  C4_default.1 true true schedRow ⟨2026, 3, 10⟩ ⟨15, 30⟩ (by decide) (by decide) (by decide)

/-- Claim C6, witness: with the `Month #` column absent the derived month is
the start instant's month. -/
theorem C6_witness :
    (enrichRow false false schedRow).monthNum =
      (enrichRow false false schedRow).startInstant.map monthOfMin :=
  (C6_reconstruct { hasMonthNum := false, hasDay := false, rows := [schedRow] }
    (enrichRow false false schedRow) (by decide)).1 rfl

/-- A raw row with no parseable date. -/
def mtRow : RawRow :=
  { date := [], time := [], week := [], monthNum := none, dayName := none, manager := [],
    participants := [], locationFocus := [], modeOfConnect := [] }

/-- The one-row table holding `mtRow`. -/
def mtTable : RawTable := { hasMonthNum := true, hasDay := true, rows := [mtRow] }

/-- Claim C7, witness: the enriched singleton table is sorted and every row
after its absent-start row has an absent start. -/
theorem C7_witness :
    List.Sorted (fun a b => rowLE a b = true) (enrich_schedule mtTable) ∧
      ∀ b ∈ ([] : List Row), b.startInstant = none :=
  ⟨(C7_sorted mtTable).1,
   (C7_sorted mtTable).2 [] (enrichRow true true mtRow) [] (by decide) (by decide)⟩

end CWC
